import Mathlib

/-!
Verification development for the akubra request-routing core: a shallow
embedding of the credentials cache (`transport/crdstore/crdstore.go`), the
sharding ring (`sharding/sharding.go`) and the transport decorators
(`httphandler` package), together with theorems settling the specification
claims about them.

Conventions of the embedding:
* Go strings are `String` in the credentials-store model (only built by
  concatenation and compared for equality there) and `List Char` in the
  sharding and header models (where they are trimmed and split).
* `time.Time` and `time.Duration` values are natural numbers of
  nanoseconds.  All times occurring at runtime are non-negative and far
  below `2 ^ 63`, so `Nat` arithmetic (with truncating division, as in Go)
  is exact.
* Stateful code is explicit state passing: the `syncmap.Map` cache is an
  association list, and each call takes the wire-level answer of the
  credentials service as an oracle argument.
* The mutex is represented by a boolean `lockHeld` environment input:
  whether another thread holds the store lock at the moment of the call.
  A blocking acquisition eventually succeeds and proceeds; a `tryLock`
  fails exactly when `lockHeld` is true.
-/

namespace Crdstore

/-- Errors produced by the credentials path: the sentinel
`ErrCredentialsNotFound` of `crdstore.go` and the transient
(`fmt.Errorf`-built) errors, carrying their message. -/
inductive CrdError where
  | notFound : CrdError
  | transient (msg : String) : CrdError
deriving DecidableEq

/-- Modelled from the spec: the `CredentialsStoreData` record is declared
outside the given sources; its fields are those `crdstore.go` reads and
writes (`AccessKey`, `SecretKey`, `EOL`, `err`) and which the spec lists as
`access_key`, `secret_key`, `eol`, `last_error`.  `EOL` is an absolute
timestamp in nanoseconds. -/
structure CredentialsStoreData where
  AccessKey : String
  SecretKey : String
  EOL : Nat
  err : Option CrdError
deriving DecidableEq

/-- Zero value of the Go struct, as produced by `&CredentialsStoreData{}`. -/
def emptyCSD : CredentialsStoreData :=
  { AccessKey := "", SecretKey := "", EOL := 0, err := none }

/-- Constant `refreshTTLPercent = 80` of `crdstore.go`. -/
def refreshTTLPercent : Nat := 80

/-- Constant `ttl = 10 * time.Second` of `crdstore.go`, in nanoseconds. -/
def ttl : Nat := 10 * 1000000000

/-- Outcome of one exchange with the credentials service, as seen by
`GetFromService`: either the transport layer failed, or an HTTP response
with a status code and a body arrived. -/
inductive WireResult where
  | transportError (msg : String) : WireResult
  | resp (statusCode : Nat) (body : String) : WireResult
deriving DecidableEq

/-- The cache (`cs.cache`, a `syncmap.Map`) as an association list from
composite keys to entries. -/
def Cache := List (String × CredentialsStoreData)
deriving DecidableEq

/-- Lookup in the cache, `cs.cache.Load(key)`. -/
def cacheLoad (m : Cache) (key : String) : Option CredentialsStoreData :=
  List.lookup key m

/-- Store into the cache, `cs.cache.Store(key, newCsd)`: the new binding
shadows any previous binding of the key. -/
def cacheStore (key : String) (v : CredentialsStoreData) (m : Cache) : Cache :=
  (key, v) :: List.filter (fun p => p.1 != key) m

/-- Key construction `prepareKey`: `fmt.Sprintf("%s_____%s", accessKey, backend)`. -/
def prepareKey (accessKey backend : String) : String :=
  accessKey ++ "_____" ++ backend

/-- Embedding of `GetFromService` (crdstore.go lines 126-152).  The
`unmarshal` parameter abstracts `CredentialsStoreData.Unmarshal`, whose
wire format is outside the sources; it returns the filled record and the
error value.  The result is the pair `(csd, err)` returned by Go: `csd` is
`none` exactly in the 404 case. -/
def GetFromService (unmarshal : String → CredentialsStoreData × Option CrdError)
    (wire : WireResult) : Option CredentialsStoreData × Option CrdError :=
  match wire with
  | .transportError msg =>
      (some emptyCSD,
       some (.transient ("unable to make request to credentials store service - err: " ++ msg)))
  | .resp statusCode body =>
      if statusCode = 404 then
        (none, some .notFound)
      else if statusCode ≠ 200 then
        (some emptyCSD,
         some (.transient ("unable to get credentials from store service - StatusCode: " ++
           toString statusCode)))
      else if body.length = 0 then
        (some emptyCSD, some (.transient "got empty credentials from store service"))
      else
        let r := unmarshal body
        (some r.1, r.2)

/-- Result of `updateCache`: the returned `(newCsd, err)` pair, the cache
after the call, and whether the credentials service was contacted. -/
structure UpdateOutcome where
  result : Option CredentialsStoreData
  err : Option CrdError
  cache : Cache
  serviceCalled : Bool
deriving DecidableEq

/-- Embedding of `updateCache` (crdstore.go lines 69-99).  `CSD` is the
`csd` argument (the prior cache entry or `nil`), `blocking` the flag of the
source; `now` models the `time.Now()` calls of the refresh and `wire` the
answer the service would give.  When `blocking` is false and the lock is
held, `tryLock` fails and the prior entry is returned unchanged. -/
def updateCache (unmarshal : String → CredentialsStoreData × Option CrdError)
    (TTL now : Nat) (wire : WireResult) (lockHeld : Bool) (m : Cache)
    (key : String) (csd : Option CredentialsStoreData) (blocking : Bool) :
    UpdateOutcome :=
  if !blocking && lockHeld then
    { result := csd, err := none, cache := m, serviceCalled := false }
  else
    let fetched := GetFromService unmarshal wire
    let newCsd : CredentialsStoreData :=
      match fetched.2 with
      | none => { (fetched.1.getD emptyCSD) with err := none }
      | some .notFound =>
          { AccessKey := "", SecretKey := "", EOL := now + TTL, err := some .notFound }
      | some e =>
          match csd with
          | none => { AccessKey := "", SecretKey := "", EOL := now + TTL, err := some e }
          | some prior => { prior with err := some e }
    let newCsd : CredentialsStoreData := { newCsd with EOL := now + TTL }
    let m : Cache := cacheStore key newCsd m
    if newCsd.AccessKey = "" then
      { result := none, err := newCsd.err, cache := m, serviceCalled := true }
    else
      { result := some newCsd, err := none, cache := m, serviceCalled := true }

/-- Which of the four switch cases of `Get` fired. -/
inductive RefreshKind where
  | blocking : RefreshKind
  | syncTryLock : RefreshKind
  | async : RefreshKind
  | noRefresh : RefreshKind
deriving DecidableEq

/-- Result of `Get`: the returned `(csd, err)` pair, the cache after the
synchronous part of the call, which switch case fired, and whether the
service was contacted synchronously (an `async` spawn contacts it later,
from the spawned goroutine). -/
structure GetOutcome where
  result : Option CredentialsStoreData
  err : Option CrdError
  cache : Cache
  kind : RefreshKind
  serviceCalled : Bool
deriving DecidableEq

/-- The soft-refresh window added to `now` in the third case of `Get`:
`cs.TTL / time.Second * (100 - refreshTTLPercent) * 10 * time.Millisecond`.
Division is truncating, exactly as on Go durations (non-negative here). -/
def softRefreshWindow (TTL : Nat) : Nat :=
  TTL / 1000000000 * (100 - refreshTTLPercent) * 10 * 1000000

/-- Embedding of `Get` (crdstore.go lines 106-123), switch cases in source
order: absent entry or empty `AccessKey` → blocking refresh; expired →
non-blocking synchronous refresh; inside the soft-refresh window → return
the entry and spawn an asynchronous refresh; otherwise return the entry. -/
def Get (unmarshal : String → CredentialsStoreData × Option CrdError)
    (TTL now : Nat) (wire : WireResult) (lockHeld : Bool) (m : Cache)
    (accessKey backend : String) : GetOutcome :=
  let key := prepareKey accessKey backend
  match cacheLoad m key with
  | none =>
      let u := updateCache unmarshal TTL now wire lockHeld m key none true
      { result := u.result, err := u.err, cache := u.cache,
        kind := .blocking, serviceCalled := u.serviceCalled }
  | some c =>
      if c.AccessKey = "" then
        let u := updateCache unmarshal TTL now wire lockHeld m key (some c) true
        { result := u.result, err := u.err, cache := u.cache,
          kind := .blocking, serviceCalled := u.serviceCalled }
      else if now > c.EOL then
        let u := updateCache unmarshal TTL now wire lockHeld m key (some c) false
        { result := u.result, err := u.err, cache := u.cache,
          kind := .syncTryLock, serviceCalled := u.serviceCalled }
      else if now + softRefreshWindow TTL > c.EOL then
        { result := some c, err := none, cache := m,
          kind := .async, serviceCalled := false }
      else
        { result := some c, err := none, cache := m,
          kind := .noRefresh, serviceCalled := false }

/-- One scripted `Get` call: its time, the service answer it would see,
and the lock-contention state at that moment. -/
structure GetCall where
  now : Nat
  wire : WireResult
  lockHeld : Bool
  accessKey : String
  backend : String

/-- Run a sequence of `Get` calls against a store, threading the cache and
counting how many synchronous requests reach the credentials service. -/
def runGets (unmarshal : String → CredentialsStoreData × Option CrdError)
    (TTL : Nat) : Cache → Nat → List GetCall → Cache × Nat
  | m, n, [] => (m, n)
  | m, n, call :: rest =>
      let o := Get unmarshal TTL call.now call.wire call.lockHeld m
        call.accessKey call.backend
      runGets unmarshal TTL o.cache (n + (if o.serviceCalled then 1 else 0)) rest

/-- Concrete unmarshal used by witnesses: the body is taken as the access
key, the secret is fixed, parsing always succeeds.  The claims under test
do not depend on the wire format, which the spec leaves open. -/
def unmarshal0 (body : String) : CredentialsStoreData × Option CrdError :=
  ({ AccessKey := body, SecretKey := "sk", EOL := 0, err := none }, none)

end Crdstore

namespace Sharding

/-- Embedding of Go `strings.Split(s, sep)` for a one-character separator,
on strings as character lists.  `strings.Split` of the empty string yields
one empty field, and every separator occurrence starts a new field. -/
def goSplit (sep : Char) : List Char → List (List Char)
  | [] => [[]]
  | c :: cs =>
      if c = sep then [] :: goSplit sep cs
      else
        match goSplit sep cs with
        | [] => [[c]]
        | f :: rest => (c :: f) :: rest

/-- Removal of leading separators, the left half of Go `strings.Trim`. -/
def trimLead (sep : Char) (s : List Char) : List Char :=
  s.dropWhile (fun c => c = sep)

/-- Removal of trailing separators, the right half of Go `strings.Trim`. -/
def trimTrail (sep : Char) (s : List Char) : List Char :=
  (s.reverse.dropWhile (fun c => c = sep)).reverse

/-- Embedding of Go `strings.Trim(path, "/")`: remove every leading and
trailing slash. -/
def trimSlashes (s : List Char) : List Char :=
  trimTrail '/' (trimLead '/' s)

/-- Number of non-empty fields of `goSplit`. -/
def segCount (sep : Char) (s : List Char) : Nat :=
  ((goSplit sep s).filter (fun f => !f.isEmpty)).length

/-- Embedding of `shardsRing.isBucketPath` (sharding.go lines 28-31):
`len(strings.Split(strings.Trim(path, "/"), "/")) == 1`. -/
def isBucketPath (path : List Char) : Bool :=
  (goSplit '/' (trimSlashes path)).length == 1

/-- Definition following the words of the spec: the number of non-empty
segments of the path after trimming leading and trailing slashes.  Used to
compare the spec's bucket-path condition with the one of the source. -/
def nonEmptySegmentCount (path : List Char) : Nat :=
  segCount '/' (trimSlashes path)

/-- The parts of a `shardsRing` that `Pick` reads: the consistent-hash
lookup function of `ring.Get` (opaque hashing), the shard-to-cluster index
and the all-clusters transport.  Transports are an abstract type `τ`. -/
structure ShardsRing (τ : Type) where
  ringGet : List Char → List Char
  shardClusterMap : List (List Char × τ)
  allClustersRoundTripper : τ

/-- Embedding of `shardsRing.Pick` (sharding.go lines 33-47): bucket paths
go to the all-clusters transport, other keys through the hash ring and the
shard-cluster index; a shard name absent from the index is the error case,
modelled as `Except.error (shardName, key)`. -/
def Pick {τ : Type} (sr : ShardsRing τ) (key : List Char) :
    Except (List Char × List Char) τ :=
  if isBucketPath key then
    Except.ok sr.allClustersRoundTripper
  else
    let shardName := sr.ringGet key
    match List.lookup shardName sr.shardClusterMap with
    | some shardCluster => Except.ok shardCluster
    | none => Except.error (shardName, key)

/-- Decimal rendering of a natural number, the embedding of the `%d` verb
of `fmt.Sprintf`. -/
def toDecimal (n : Nat) : List Char :=
  if _hlt : n < 10 then [Nat.digitChar n]
  else toDecimal (n / 10) ++ [Nat.digitChar (n % 10)]
decreasing_by
  exact Nat.div_lt_self (Nat.lt_of_lt_of_le (by norm_num) (Nat.le_of_not_lt _hlt)) (by norm_num)

/-- Decimal reading, left inverse of `toDecimal`. -/
def ofDecimal (s : List Char) : Nat :=
  s.foldl (fun acc c => acc * 10 + (c.toNat - 48)) 0

/-- Virtual shard identifier: `fmt.Sprintf("%s-%d", name, i)` from
`mapShards` (sharding.go line 113). -/
def shardName (name : List Char) (i : Nat) : List Char :=
  name ++ '-' :: toDecimal i

/-- Per-cluster virtual shard count of `mapShards` (sharding.go line 111):
`float64(shards_count) * float64(weight) / float64(weightSum)`, truncated
by the `int` conversion.  The float64 products and quotient coincide with
the exact rational value truncated — i.e. with natural floor division —
whenever `shardsCount * weight < 2 ^ 53`, which covers the value ranges of
real configurations; the embedding uses the exact floor. -/
def shardsNum (shardsCount weightSum weight : Nat) : Nat :=
  shardsCount * weight / weightSum

/-- A cluster as `mapShards` sees it: its configured name and weight (its
transport and backend list play no role in shard assignment). -/
structure ClusterCfg where
  name : List Char
  weight : Nat
deriving DecidableEq

/-- Go map store for the shard-cluster map under construction. -/
def mapStore (key : List Char) (v : ClusterCfg)
    (m : List (List Char × ClusterCfg)) : List (List Char × ClusterCfg) :=
  (key, v) :: List.filter (fun p => p.1 != key) m

/-- Embedding of `ringFactory.mapShards` (sharding.go lines 104-118): for
each selected cluster, store `shardsNum` virtual shard identifiers
`"{name}-{i}"`, `i` ascending from 0, into the shard-cluster map. -/
def mapShards (shardsCount weightSum : Nat) (clusters : List ClusterCfg) :
    List (List Char × ClusterCfg) :=
  clusters.foldl
    (fun m c =>
      (List.range (shardsNum shardsCount weightSum c.weight)).foldl
        (fun acc i => mapStore (shardName c.name i) c acc) m)
    []

/-- The weight sum `clientRing` computes over the selected clusters
(sharding.go lines 143-152) and passes to `mapShards`. -/
def weightSum (clusters : List ClusterCfg) : Nat :=
  (clusters.map (fun c => c.weight)).sum

/-- The association list `mapShards` builds, flattened in generation
order: block of cluster 1, then block of cluster 2, ....  When no key
collides, `mapShards` equals this list reversed. -/
def shardBlocks (shardsCount weightSum : Nat) (clusters : List ClusterCfg) :
    List (List Char × ClusterCfg) :=
  clusters.flatMap
    (fun c => (List.range (shardsNum shardsCount weightSum c.weight)).map
      (fun i => (shardName c.name i, c)))

/-- Folding `mapStore` over a list of bindings, the spine of `mapShards`. -/
def storeAll (l : List (List Char × ClusterCfg))
    (m : List (List Char × ClusterCfg)) : List (List Char × ClusterCfg) :=
  l.foldl (fun acc kv => mapStore kv.1 kv.2 acc) m

end Sharding

namespace Httphandler

/-- Embedding of `Decorate` (part_000 lines 129-135): fold the decorator
list over the transport, each decorator wrapping the transport built so
far.  Transports are an abstract type `τ`; a decorator is `τ → τ`. -/
def Decorate {τ : Type} (roundTripper : τ) (decorators : List (τ → τ)) : τ :=
  decorators.foldl (fun rt dec => dec rt) roundTripper

/-- Transport used to observe execution order of decorators: a transport
maps a request, recorded as the list of decorator tags that already acted
on it, to the final trace. -/
def TraceTransport : Type := List Nat → List Nat

/-- Decorator with tag `i` over the trace transport: it appends its tag to
the inbound request before calling the transport it wraps, so the trace
lists the wrappers outermost first. -/
def tagDecorator (i : Nat) : TraceTransport → TraceTransport :=
  fun rt req => rt (req ++ [i])

/-- The identity trace transport, standing for the undecorated base
round tripper. -/
def baseTransport : TraceTransport := fun req => req

/-- Substring test, the embedding of Go `strings.Contains(s, pat)` for a
non-empty pattern. -/
def containsSub (pat : List Char) : List Char → Bool
  | [] => pat.isEmpty
  | c :: cs => pat.isPrefixOf (c :: cs) || containsSub pat cs

/-- First field of Go `strings.Split(s, pat)`: the characters before the
first occurrence of `pat`, or all of `s` when `pat` does not occur. -/
def splitBefore (pat : List Char) : List Char → List Char
  | [] => []
  | c :: cs => if pat.isPrefixOf (c :: cs) then [] else c :: splitBefore pat cs

/-- The S3 virtual-hosted-bucket marker `".s3."`. -/
def s3Pat : List Char := ['.', 's', '3', '.']

/-- The fields of an `http.Request` that `headersSuplier.RoundTrip` reads
or writes: `req.Host`, `req.URL.Host` (already pointing at the backend),
`req.URL.Scheme`, and the header map. -/
structure Request where
  host : List Char
  urlHost : List Char
  urlScheme : List Char
  headers : List (List Char × List Char)
deriving DecidableEq

/-- Header write `req.Header.Set(k, v)`: replaces any previous value. -/
def setHeader (k v : List Char) (hs : List (List Char × List Char)) :
    List (List Char × List Char) :=
  (k, v) :: List.filter (fun p => p.1 != k) hs

/-- Header-map literal for the `Host` key. -/
def hostKey : List Char := ['H', 'o', 's', 't']

/-- One step of the request-header loop of `headersSuplier.RoundTrip`:
set the header only if it is absent. -/
def addIfAbsent (r : Request) (kv : List Char × List Char) : Request :=
  if (List.lookup kv.1 r.headers).isSome then r
  else { r with headers := setHeader kv.1 kv.2 r.headers }

/-- The request-header loop of `headersSuplier.RoundTrip`. -/
def applyRequestHeaders (requestHeaders : List (List Char × List Char))
    (req : Request) : Request :=
  requestHeaders.foldl addIfAbsent req

/-- Embedding of the request-side half of `headersSuplier.RoundTrip`
(part_000 lines 60-77): force the URL scheme to http, add each configured
request header only if absent, and when the original `Host` contains
`".s3."` rebuild `Host` from the bucket part and the backend host. -/
def headersSuplierPre (requestHeaders : List (List Char × List Char))
    (req : Request) : Request :=
  let req := applyRequestHeaders requestHeaders
    { req with urlScheme := ['h', 't', 't', 'p'] }
  if containsSub s3Pat req.host then
    let bucketPart := splitBefore s3Pat req.host
    let newhost := bucketPart ++ '.' :: req.urlHost
    { req with headers := setHeader hostKey newhost req.headers, host := newhost }
  else
    req

end Httphandler

namespace Sharding

theorem goSplit_ne_nil (sep : Char) (xs : List Char) : goSplit sep xs ≠ [] := by
  cases xs with
  | nil => simp [goSplit]
  | cons c cs =>
      by_cases h : c = sep
      · simp [goSplit, h]
      · simp only [goSplit, if_neg h]
        cases goSplit sep cs <;> simp

theorem goSplit_of_not_mem {sep : Char} {xs : List Char} (h : sep ∉ xs) :
    goSplit sep xs = [xs] := by
  induction xs with
  | nil => rfl
  | cons c cs ih =>
      have hc : ¬ c = sep := fun hh => h (hh ▸ List.mem_cons_self c cs)
      have hcs : sep ∉ cs := fun hm => h (List.mem_cons_of_mem _ hm)
      simp [goSplit, if_neg hc, ih hcs]

theorem goSplit_cons_sep (sep : Char) (cs : List Char) :
    goSplit sep (sep :: cs) = [] :: goSplit sep cs := by
  simp [goSplit]

theorem goSplit_cons_of_ne (sep c : Char) (cs : List Char) (h : ¬ c = sep) :
    goSplit sep (c :: cs) =
      (c :: (goSplit sep cs).headI) :: (goSplit sep cs).tail := by
  cases hg : goSplit sep cs with
  | nil => exact absurd hg (goSplit_ne_nil sep cs)
  | cons f rest => simp [goSplit, if_neg h, hg]

theorem goSplit_length_eq_one_iff (sep : Char) (xs : List Char) :
    (goSplit sep xs).length = 1 ↔ sep ∉ xs := by
  induction xs with
  | nil => simp [goSplit]
  | cons c cs ih =>
      by_cases h : c = sep
      · rw [h, goSplit_cons_sep, List.length_cons]
        have hpos : 0 < (goSplit sep cs).length :=
          List.length_pos.mpr (goSplit_ne_nil sep cs)
        constructor
        · intro hlen
          exact absurd hlen (by omega)
        · intro hmem
          exact absurd (List.mem_cons_self sep cs) hmem
      · cases hg : goSplit sep cs with
        | nil => exact absurd hg (goSplit_ne_nil sep cs)
        | cons f rest =>
            simp only [goSplit, if_neg h, hg, List.length_cons]
            rw [hg] at ih
            simp only [List.length_cons] at ih
            rw [List.mem_cons]
            constructor
            · intro hlen
              rintro (he | hm)
              · exact h he.symm
              · exact (ih.mp hlen) hm
            · intro hmem
              exact ih.mpr (fun hm => hmem (Or.inr hm))

theorem goSplit_snoc_sep (sep : Char) (xs : List Char) :
    goSplit sep (xs ++ [sep]) = goSplit sep xs ++ [[]] := by
  induction xs with
  | nil => simp [goSplit]
  | cons c cs ih =>
      by_cases h : c = sep
      · rw [List.cons_append, h, goSplit_cons_sep, goSplit_cons_sep, ih]
        rfl
      · cases hg : goSplit sep cs with
        | nil => exact absurd hg (goSplit_ne_nil sep cs)
        | cons f rest =>
            rw [hg] at ih
            rw [List.cons_append, goSplit_cons_of_ne sep c _ h,
              goSplit_cons_of_ne sep c _ h, hg, ih]
            rfl

theorem goSplit_first {sep : Char} (a b : List Char) (ha : sep ∉ a) :
    goSplit sep (a ++ sep :: b) = a :: goSplit sep b := by
  induction a with
  | nil => simp [goSplit]
  | cons c cs ih =>
      have hc : ¬ c = sep := fun hh => ha (hh ▸ List.mem_cons_self c cs)
      have hcs : sep ∉ cs := fun hm => ha (List.mem_cons_of_mem _ hm)
      simp [goSplit, if_neg hc, ih hcs]

theorem exists_first_split (sep : Char) (t : List Char) (h : sep ∈ t) :
    ∃ a b, t = a ++ sep :: b ∧ sep ∉ a := by
  induction t with
  | nil => cases h
  | cons c cs ih =>
      by_cases hc : c = sep
      · exact ⟨[], cs, by simp [hc], by simp⟩
      · have h2 : sep ∈ cs := by
          rcases List.mem_cons.mp h with he | hm
          · exact absurd he.symm hc
          · exact hm
        obtain ⟨a, b, hab, ha⟩ := ih h2
        refine ⟨c :: a, b, by rw [List.cons_append, hab], ?_⟩
        rw [List.mem_cons]
        rintro (he | hm)
        · exact hc he.symm
        · exact ha hm

theorem segCount_cons_sep (sep : Char) (cs : List Char) :
    segCount sep (sep :: cs) = segCount sep cs := by
  simp [segCount, goSplit, List.filter_cons]

theorem segCount_snoc_sep (sep : Char) (xs : List Char) :
    segCount sep (xs ++ [sep]) = segCount sep xs := by
  simp [segCount, goSplit_snoc_sep, List.filter_append]

theorem segCount_of_not_mem {sep : Char} {xs : List Char} (h : sep ∉ xs) :
    segCount sep xs = if xs.isEmpty then 0 else 1 := by
  rw [segCount, goSplit_of_not_mem h]
  cases xs <;> simp [List.filter]

theorem trimLead_eq_of_head (sep : Char) (c : Char) (cs : List Char) (h : ¬ c = sep) :
    trimLead sep (c :: cs) = c :: cs := by
  simp [trimLead, List.dropWhile_cons, h]

theorem segCount_trimLead (sep : Char) (s : List Char) :
    segCount sep (trimLead sep s) = segCount sep s := by
  induction s with
  | nil => rfl
  | cons c cs ih =>
      by_cases h : c = sep
      · have h1 : trimLead sep (sep :: cs) = trimLead sep cs := by
          simp [trimLead, List.dropWhile_cons]
        rw [h, h1, ih, segCount_cons_sep]
      · rw [trimLead_eq_of_head sep c cs h]

theorem trimTrail_snoc_sep (sep : Char) (ys : List Char) :
    trimTrail sep (ys ++ [sep]) = trimTrail sep ys := by
  simp [trimTrail, List.reverse_append, List.dropWhile_cons]

theorem trimTrail_snoc_of_ne (sep : Char) (ys : List Char) (c : Char) (h : ¬ c = sep) :
    trimTrail sep (ys ++ [c]) = ys ++ [c] := by
  simp [trimTrail, List.reverse_append, List.dropWhile_cons, h]

theorem segCount_trimTrail (sep : Char) (s : List Char) :
    segCount sep (trimTrail sep s) = segCount sep s := by
  induction s using List.reverseRecOn with
  | nil => rfl
  | append_singleton ys c ih =>
      by_cases h : c = sep
      · subst h
        rw [trimTrail_snoc_sep, ih, segCount_snoc_sep]
      · rw [trimTrail_snoc_of_ne sep ys c h]

theorem head?_trimLead (sep : Char) (s : List Char) :
    (trimLead sep s).head? ≠ some sep := by
  induction s with
  | nil => simp [trimLead]
  | cons c cs ih =>
      by_cases h : c = sep
      · simpa [trimLead, List.dropWhile_cons, h] using ih
      · simp [trimLead, List.dropWhile_cons, h]

theorem head?_trimTrail_eq (sep : Char) (u : List Char) :
    (trimTrail sep u).head? = none ∨ (trimTrail sep u).head? = u.head? := by
  induction u using List.reverseRecOn with
  | nil => left; rfl
  | append_singleton ys c ih =>
      by_cases h : c = sep
      · subst h
        rw [trimTrail_snoc_sep]
        rcases ih with h0 | h1
        · left; exact h0
        · cases ys with
          | nil =>
              left
              simpa using h1
          | cons y ys2 =>
              right
              rw [h1]
              simp
      · rw [trimTrail_snoc_of_ne sep ys c h]
        right
        rfl

theorem getLast?_trimTrail (sep : Char) (u : List Char) :
    (trimTrail sep u).getLast? ≠ some sep := by
  have : trimTrail sep u = (trimLead sep u.reverse).reverse := rfl
  rw [this, List.getLast?_reverse]
  exact head?_trimLead sep u.reverse

theorem getLast?_append_cons_of_ne_nil (a : List Char) (sep : Char) (b : List Char)
    (hb : b ≠ []) : (a ++ sep :: b).getLast? = b.getLast? := by
  rw [List.getLast?_append_cons]
  cases b with
  | nil => exact absurd rfl hb
  | cons y ys => rw [List.getLast?_cons_cons]

theorem segCount_pos_of_getLast (sep : Char) (xs : List Char) (hne : xs ≠ [])
    (hlast : xs.getLast? ≠ some sep) : 1 ≤ segCount sep xs := by
  by_cases hmem : sep ∈ xs
  · obtain ⟨a, b, heq, ha⟩ := exists_first_split sep xs hmem
    have hb : b ≠ [] := by
      rintro rfl
      apply hlast
      rw [heq, List.getLast?_append_cons]
      rfl
    have hlb : b.getLast? ≠ some sep := by
      rw [← getLast?_append_cons_of_ne_nil a sep b hb, ← heq]
      exact hlast
    have ih : 1 ≤ segCount sep b := segCount_pos_of_getLast sep b hb hlb
    rw [heq, segCount, goSplit_first a b ha, List.filter_cons]
    split
    · simp only [List.length_cons]
      omega
    · rw [segCount] at ih
      exact ih
  · rw [segCount_of_not_mem hmem]
    simp [List.isEmpty_iff, hne]
termination_by xs.length
decreasing_by
  rw [heq]
  simp only [List.length_append, List.length_cons]
  omega

theorem segCount_ge_two (sep : Char) (t : List Char) (hmem : sep ∈ t)
    (hhead : t.head? ≠ some sep) (hlast : t.getLast? ≠ some sep) :
    2 ≤ segCount sep t := by
  obtain ⟨a, b, heq, ha⟩ := exists_first_split sep t hmem
  subst heq
  have hane : a ≠ [] := by
    rintro rfl
    exact hhead (by simp)
  have hb : b ≠ [] := by
    rintro rfl
    apply hlast
    rw [List.getLast?_append_cons]
    rfl
  have hbl : (a ++ sep :: b).getLast? = b.getLast? :=
    getLast?_append_cons_of_ne_nil a sep b hb
  have h1 : 1 ≤ segCount sep b :=
    segCount_pos_of_getLast sep b hb (by rw [← hbl]; exact hlast)
  rw [segCount, goSplit_first a b ha, List.filter_cons]
  have hfa : (!a.isEmpty) = true := by
    simp [List.isEmpty_iff, hane]
  rw [if_pos hfa]
  rw [segCount] at h1
  simp only [List.length_cons]
  omega

theorem isBucketPath_iff (path : List Char) :
    isBucketPath path = true ↔ nonEmptySegmentCount path ≤ 1 := by
  rw [isBucketPath, nonEmptySegmentCount, beq_iff_eq,
    goSplit_length_eq_one_iff]
  constructor
  · intro hnm
    rw [segCount_of_not_mem hnm]
    split <;> omega
  · intro hle
    by_contra hmem
    have hhead : (trimSlashes path).head? ≠ some '/' := by
      rcases head?_trimTrail_eq '/' (trimLead '/' path) with h0 | h1
      · rw [show trimSlashes path = trimTrail '/' (trimLead '/' path) from rfl, h0]
        simp
      · rw [show trimSlashes path = trimTrail '/' (trimLead '/' path) from rfl, h1]
        exact head?_trimLead '/' path
    have hlast : (trimSlashes path).getLast? ≠ some '/' :=
      getLast?_trimTrail '/' (trimLead '/' path)
    have := segCount_ge_two '/' (trimSlashes path) hmem hhead hlast
    omega

theorem toDecimal_eq_small {n : Nat} (h : n < 10) :
    toDecimal n = [Nat.digitChar n] := by
  rw [toDecimal]
  exact dif_pos h

theorem toDecimal_eq_large {n : Nat} (h : ¬ n < 10) :
    toDecimal n = toDecimal (n / 10) ++ [Nat.digitChar (n % 10)] := by
  rw [toDecimal]
  exact dif_neg h

theorem digitChar_ne_dash : ∀ k < 10, Nat.digitChar k ≠ '-' := by decide

theorem digitChar_val : ∀ k < 10, (Nat.digitChar k).toNat - 48 = k := by decide

theorem toDecimal_no_dash (n : Nat) : '-' ∉ toDecimal n := by
  by_cases h : n < 10
  · rw [toDecimal_eq_small h]
    intro hmem
    rcases List.mem_singleton.mp hmem with heq
    exact digitChar_ne_dash n h heq.symm
  · rw [toDecimal_eq_large h]
    intro hmem
    rcases List.mem_append.mp hmem with h1 | h2
    · exact toDecimal_no_dash (n / 10) h1
    · rcases List.mem_singleton.mp h2 with heq
      exact digitChar_ne_dash (n % 10) (Nat.mod_lt n (by norm_num)) heq.symm
termination_by n
decreasing_by
  exact Nat.div_lt_self (Nat.lt_of_lt_of_le (by norm_num) (Nat.le_of_not_lt h)) (by norm_num)

theorem ofDecimal_append (s : List Char) (c : Char) :
    ofDecimal (s ++ [c]) = ofDecimal s * 10 + (c.toNat - 48) := by
  rw [ofDecimal, ofDecimal, List.foldl_append]
  rfl

theorem ofDecimal_toDecimal (n : Nat) : ofDecimal (toDecimal n) = n := by
  by_cases h : n < 10
  · rw [toDecimal_eq_small h]
    show 0 * 10 + ((Nat.digitChar n).toNat - 48) = n
    rw [Nat.zero_mul, Nat.zero_add]
    exact digitChar_val n h
  · rw [toDecimal_eq_large h, ofDecimal_append, ofDecimal_toDecimal (n / 10),
      digitChar_val (n % 10) (Nat.mod_lt n (by norm_num))]
    omega
termination_by n
decreasing_by
  exact Nat.div_lt_self (Nat.lt_of_lt_of_le (by norm_num) (Nat.le_of_not_lt h)) (by norm_num)

theorem toDecimal_inj {a b : Nat} (h : toDecimal a = toDecimal b) : a = b := by
  have := congrArg ofDecimal h
  rwa [ofDecimal_toDecimal, ofDecimal_toDecimal] at this

theorem append_cons_inj {c : Char} {b2 : List Char} :
    ∀ {a1 : List Char} {b1 : List Char} {a2 : List Char},
      a1 ++ c :: b1 = a2 ++ c :: b2 → c ∉ a1 → c ∉ a2 → a1 = a2 ∧ b1 = b2 := by
  intro a1
  induction a1 with
  | nil =>
      intro b1 a2 h h1 h2
      cases a2 with
      | nil => simpa using h
      | cons x t =>
          rw [List.nil_append, List.cons_append] at h
          injection h with hx _
          exact absurd (hx ▸ List.mem_cons_self x t) h2
  | cons x t ih =>
      intro b1 a2 h h1 h2
      cases a2 with
      | nil =>
          rw [List.nil_append, List.cons_append] at h
          injection h with hx _
          exact absurd (hx.symm ▸ List.mem_cons_self x t) h1
      | cons y s =>
          rw [List.cons_append, List.cons_append] at h
          injection h with hxy ht
          have h1t : c ∉ t := fun hm => h1 (List.mem_cons_of_mem x hm)
          have h2s : c ∉ s := fun hm => h2 (List.mem_cons_of_mem y hm)
          obtain ⟨he1, he2⟩ := ih ht h1t h2s
          exact ⟨by rw [hxy, he1], he2⟩

theorem shardName_reverse (n : List Char) (i : Nat) :
    (shardName n i).reverse = (toDecimal i).reverse ++ '-' :: n.reverse := by
  rw [shardName, List.reverse_append, List.reverse_cons, List.append_assoc]
  rfl

theorem shardName_inj {n1 n2 : List Char} {i1 i2 : Nat}
    (h : shardName n1 i1 = shardName n2 i2) : n1 = n2 ∧ i1 = i2 := by
  have hrev := congrArg List.reverse h
  rw [shardName_reverse, shardName_reverse] at hrev
  have h1 : '-' ∉ (toDecimal i1).reverse := by
    rw [List.mem_reverse]
    exact toDecimal_no_dash i1
  have h2 : '-' ∉ (toDecimal i2).reverse := by
    rw [List.mem_reverse]
    exact toDecimal_no_dash i2
  obtain ⟨ha, hb⟩ := append_cons_inj hrev h1 h2
  refine ⟨List.reverse_injective hb, toDecimal_inj ?_⟩
  exact List.reverse_injective ha

theorem sum_div_le (W : Nat) (hW : 0 < W) (l : List Nat) :
    (l.map (fun a => a / W)).sum ≤ l.sum / W := by
  induction l with
  | nil => simp
  | cons a t ih =>
      simp only [List.map_cons, List.sum_cons]
      have step : a / W + t.sum / W ≤ (a + t.sum) / W := by
        rw [Nat.le_div_iff_mul_le hW, Nat.add_mul]
        exact Nat.add_le_add (Nat.div_mul_le_self a W) (Nat.div_mul_le_self t.sum W)
      omega

theorem total_quota_le (S W : Nat) (hW : 0 < W) (clusters : List ClusterCfg)
    (hWsum : W = weightSum clusters) :
    (clusters.map (fun c => shardsNum S W c.weight)).sum ≤ S := by
  have h1 := sum_div_le W hW (clusters.map (fun c => S * c.weight))
  rw [List.map_map] at h1
  have h2 : (clusters.map (fun c => S * c.weight)).sum = S * W := by
    rw [hWsum, weightSum, ← List.sum_map_mul_left]
  rw [h2, Nat.mul_div_cancel S hW] at h1
  exact h1

theorem mapStore_fresh {k : List Char} {v : ClusterCfg}
    {m : List (List Char × ClusterCfg)} (h : ∀ p ∈ m, p.1 ≠ k) :
    mapStore k v m = (k, v) :: m := by
  rw [mapStore, List.filter_eq_self.mpr]
  intro p hp
  simpa using h p hp

theorem storeAll_fresh :
    ∀ (l m : List (List Char × ClusterCfg)), (l.map Prod.fst).Nodup →
      (∀ k ∈ l.map Prod.fst, ∀ p ∈ m, p.1 ≠ k) →
      storeAll l m = l.reverse ++ m := by
  intro l
  induction l with
  | nil =>
      intro m _ _
      rfl
  | cons kv t ih =>
      intro m hn hf
      have hk : ∀ p ∈ m, p.1 ≠ kv.1 :=
        hf kv.1 (List.mem_map_of_mem Prod.fst (List.mem_cons_self kv t))
      have hstep : storeAll (kv :: t) m = storeAll t ((kv.1, kv.2) :: m) := by
        rw [storeAll, List.foldl_cons, mapStore_fresh hk]
        rfl
      have hnt : (t.map Prod.fst).Nodup := by
        rw [List.map_cons] at hn
        exact hn.of_cons
      have hft : ∀ k ∈ t.map Prod.fst, ∀ p ∈ (kv.1, kv.2) :: m, p.1 ≠ k := by
        intro k hkm p hp
        rcases List.mem_cons.mp hp with rfl | hpm
        · rw [List.map_cons] at hn
          intro he
          exact (List.nodup_cons.mp hn).1 (he ▸ hkm)
        · exact hf k (List.mem_cons_of_mem _ hkm) p hpm
      rw [hstep, ih ((kv.1, kv.2) :: m) hnt hft, List.reverse_cons, List.append_assoc]
      rfl

theorem storeAll_append (l1 l2 m : List (List Char × ClusterCfg)) :
    storeAll (l1 ++ l2) m = storeAll l2 (storeAll l1 m) := by
  rw [storeAll, storeAll, storeAll, List.foldl_append]

theorem mapShards_eq_storeAll (S W : Nat) (clusters : List ClusterCfg) :
    mapShards S W clusters = storeAll (shardBlocks S W clusters) [] := by
  suffices h : ∀ (cl : List ClusterCfg) (m : List (List Char × ClusterCfg)),
      cl.foldl
        (fun m c =>
          (List.range (shardsNum S W c.weight)).foldl
            (fun acc i => mapStore (shardName c.name i) c acc) m)
        m = storeAll (shardBlocks S W cl) m by
    exact h clusters []
  intro cl
  induction cl with
  | nil =>
      intro m
      rfl
  | cons c t ih =>
      intro m
      have hsb : shardBlocks S W (c :: t) =
          ((List.range (shardsNum S W c.weight)).map
            (fun i => (shardName c.name i, c))) ++ shardBlocks S W t := by
        rw [shardBlocks, List.flatMap_cons, ← shardBlocks]
      rw [List.foldl_cons, ih, hsb, storeAll_append]
      congr 1
      rw [storeAll, List.foldl_map]

theorem shardBlocks_keys (S W : Nat) (clusters : List ClusterCfg) :
    (shardBlocks S W clusters).map Prod.fst =
      clusters.flatMap
        (fun c => (List.range (shardsNum S W c.weight)).map
          (fun i => shardName c.name i)) := by
  rw [shardBlocks, List.map_flatMap]
  congr 1
  funext c
  rw [List.map_map]
  rfl

theorem mem_shardBlocks_keys {S W : Nat} {clusters : List ClusterCfg}
    {k : List Char} :
    k ∈ (shardBlocks S W clusters).map Prod.fst ↔
      ∃ c ∈ clusters, ∃ i, i < shardsNum S W c.weight ∧ k = shardName c.name i := by
  rw [shardBlocks_keys]
  simp only [List.mem_flatMap, List.mem_map, List.mem_range]
  constructor
  · rintro ⟨c, hc, i, hi, rfl⟩
    exact ⟨c, hc, i, hi, rfl⟩
  · rintro ⟨c, hc, i, hi, rfl⟩
    exact ⟨c, hc, i, hi, rfl⟩

theorem shardBlocks_keys_nodup (S W : Nat) (clusters : List ClusterCfg)
    (hn : (clusters.map (fun c => c.name)).Nodup) :
    ((shardBlocks S W clusters).map Prod.fst).Nodup := by
  induction clusters with
  | nil => simp [shardBlocks]
  | cons c t ih =>
      rw [List.map_cons] at hn
      have hblock : ((List.range (shardsNum S W c.weight)).map
          (fun i => shardName c.name i)).Nodup := by
        refine List.Nodup.map ?_ (List.nodup_range _)
        intro i j hij
        exact (shardName_inj hij).2
      have htail := ih hn.of_cons
      rw [shardBlocks, List.flatMap_cons, ← shardBlocks, List.map_append,
        List.map_map]
      refine List.Nodup.append ?_ htail ?_
      · exact hblock
      · intro k hk1 hk2
        simp only [List.mem_map, List.mem_range, Function.comp] at hk1
        obtain ⟨i, hi, rfl⟩ := hk1
        obtain ⟨c2, hc2, j, hj, heq⟩ := mem_shardBlocks_keys.mp hk2
        have hname := (shardName_inj heq).1
        have hmem : c.name ∈ t.map (fun x => x.name) := by
          rw [hname]
          exact List.mem_map_of_mem (fun x => x.name) hc2
        exact (List.nodup_cons.mp hn).1 hmem

theorem lookup_eq_of_mem :
    ∀ {l : List (List Char × ClusterCfg)}, (l.map Prod.fst).Nodup →
      ∀ {k : List Char} {v : ClusterCfg}, (k, v) ∈ l →
        List.lookup k l = some v := by
  intro l
  induction l with
  | nil =>
      intro _ k v h
      cases h
  | cons p t ih =>
      obtain ⟨k1, v1⟩ := p
      intro hn k v hmem
      rw [List.map_cons] at hn
      rcases List.mem_cons.mp hmem with heq | hm
      · obtain ⟨rfl, rfl⟩ := Prod.mk.injEq k v k1 v1 ▸ heq
        simp [List.lookup]
      · have hkt : k ∈ t.map Prod.fst := List.mem_map_of_mem Prod.fst hm
        have hne : ¬ k = k1 := by
          intro he
          exact (List.nodup_cons.mp hn).1 (he ▸ hkt)
        have hb : (k == k1) = false := by simpa using hne
        simp only [List.lookup, hb]
        exact ih (List.nodup_cons.mp hn).2 hm

end Sharding

section ClaimTheorems
open Crdstore Sharding Httphandler

/-- Helper: a refresh that actually enters its locked section (blocking,
or non-blocking with the mutex free) contacts the credentials service. -/
theorem updateCache_run_serviceCalled
    (unmarshal : String → CredentialsStoreData × Option CrdError)
    (TTL now : Nat) (wire : WireResult) (lockHeld : Bool) (m : Cache)
    (key : String) (csd : Option CredentialsStoreData) (blocking : Bool)
    (h : (!blocking && lockHeld) = false) :
    (updateCache unmarshal TTL now wire lockHeld m key csd blocking).serviceCalled =
      true := by
  unfold updateCache
  rw [h]
  simp only [Bool.false_eq_true, if_false]
  split <;> rfl

/-- C1.  The claim says a cached 404 sentinel suppresses further requests
to the credentials service for the TTL window.  The code stores the
sentinel (with `eol = now + TTL` and the `NotFound` error recorded on it,
fields that are never consulted again), but the first switch case of `Get`
treats every entry with empty `access_key` as a cache miss and performs a
blocking refresh, so each subsequent `Get` within the TTL window contacts
the service again.  This theorem evaluates the embedding at the failing
input: a 404 at time 1000 ns caches the sentinel and returns
`ErrCredentialsNotFound`, and a second `Get` 10 ms later — far inside the
10 s TTL — calls the service again through the blocking case. -/
theorem negative_cache_retries_C1 :
    (Get unmarshal0 ttl 1000 (.resp 404 "") false [] "AK" "b1").err =
        some CrdError.notFound ∧
    (Get unmarshal0 ttl 1000 (.resp 404 "") false [] "AK" "b1").result = none ∧
    (Get unmarshal0 ttl 1000 (.resp 404 "") false [] "AK" "b1").cache =
        [(prepareKey "AK" "b1", ⟨"", "", 1000 + ttl, some .notFound⟩)] ∧
    1000 + 10000000 < 1000 + ttl ∧
    (Get unmarshal0 ttl (1000 + 10000000) (.resp 404 "") false
        [(prepareKey "AK" "b1", ⟨"", "", 1000 + ttl, some .notFound⟩)]
        "AK" "b1").serviceCalled = true ∧
    (Get unmarshal0 ttl (1000 + 10000000) (.resp 404 "") false
        [(prepareKey "AK" "b1", ⟨"", "", 1000 + ttl, some .notFound⟩)]
        "AK" "b1").kind = RefreshKind.blocking := by
  decide

/-- C2 counterexample.  The claim says an expired entry causes a
synchronous blocking refresh in which the caller waits for the mutex and
the service is contacted.  `Get` actually passes `blocking = false`: when
the lock is held, `tryLock` fails and the stale entry is returned
unchanged without any request.  Concrete input: entry for `AK/b1` expired
at 5000 ns, `Get` at 20 s with the lock held. -/
theorem expired_refresh_blocking_C2_counterexample :
    (Get unmarshal0 ttl 20000000000 (.resp 200 "fresh") true
        [(prepareKey "AK" "b1", ⟨"AK", "SK", 5000, none⟩)] "AK" "b1") =
      { result := some ⟨"AK", "SK", 5000, none⟩, err := none,
        cache := [(prepareKey "AK" "b1", ⟨"AK", "SK", 5000, none⟩)],
        kind := .syncTryLock, serviceCalled := false } := by
  decide

/-- C2 amended.  For an entry with non-empty `access_key` whose `eol` has
passed, `Get` performs a synchronous refresh attempt with a non-blocking
try-lock (`blocking = false`): when the mutex is free the service is
contacted; when the mutex is held by another thread the stale entry is
returned unchanged with no error and without contacting the service. -/
theorem expired_refresh_trylock_C2 (unmarshal : String → CredentialsStoreData × Option CrdError)
    (TTL now : Nat) (wire : WireResult) (lockHeld : Bool) (m : Cache)
    (accessKey backend : String) (c : CredentialsStoreData)
    (hload : cacheLoad m (prepareKey accessKey backend) = some c)
    (hak : c.AccessKey ≠ "") (hexp : now > c.EOL) :
    (Get unmarshal TTL now wire lockHeld m accessKey backend).kind =
        RefreshKind.syncTryLock ∧
    (lockHeld = true →
      Get unmarshal TTL now wire lockHeld m accessKey backend =
        { result := some c, err := none, cache := m,
          kind := .syncTryLock, serviceCalled := false }) ∧
    (lockHeld = false →
      (Get unmarshal TTL now wire lockHeld m accessKey backend).serviceCalled = true) := by
  simp only [Get, hload]
  rw [if_neg hak, if_pos hexp]
  refine ⟨rfl, ?_, ?_⟩
  · rintro rfl
    rfl
  · rintro rfl
    exact updateCache_run_serviceCalled unmarshal TTL now wire false m
      (prepareKey accessKey backend) (some c) false rfl

/-- Witness for C2: a concrete expired entry under lock contention is
returned unchanged, no service call being made. -/
theorem expired_refresh_trylock_C2_witness :
    Get unmarshal0 ttl 20000000000 (.resp 200 "fresh") true
        [(prepareKey "AK" "b1", ⟨"AK", "SK", 5000, none⟩)] "AK" "b1" =
      { result := some ⟨"AK", "SK", 5000, none⟩, err := none,
        cache := [(prepareKey "AK" "b1", ⟨"AK", "SK", 5000, none⟩)],
        kind := .syncTryLock, serviceCalled := false } :=
  (expired_refresh_trylock_C2 unmarshal0 ttl 20000000000 (.resp 200 "fresh") true
    [(prepareKey "AK" "b1", ⟨"AK", "SK", 5000, none⟩)] "AK" "b1"
    ⟨"AK", "SK", 5000, none⟩ (by decide) (by decide) (by decide)).2.1 rfl

/-- C6.  For a store with the default 10 s TTL, an entry with non-empty
`access_key` that is not yet expired: when `now` lies past
`eol − (1 − 0.80) · TTL` — equivalently `now + 2·10⁹ ns > eol`, the form
the source computes (`softRefreshWindow ttl = 2·10⁹`) — `Get` returns the
cached entry immediately with no error and spawns an asynchronous
non-blocking refresh; for a fresher entry it returns the cached entry with
no refresh at all. -/
theorem soft_refresh_window_C6 (unmarshal : String → CredentialsStoreData × Option CrdError)
    (now : Nat) (wire : WireResult) (lockHeld : Bool) (m : Cache)
    (accessKey backend : String) (c : CredentialsStoreData)
    (hload : cacheLoad m (prepareKey accessKey backend) = some c)
    (hak : c.AccessKey ≠ "") (hfresh : ¬ now > c.EOL) :
    (now + 2 * 1000000000 > c.EOL →
      Get unmarshal ttl now wire lockHeld m accessKey backend =
        { result := some c, err := none, cache := m,
          kind := .async, serviceCalled := false }) ∧
    (¬ now + 2 * 1000000000 > c.EOL →
      Get unmarshal ttl now wire lockHeld m accessKey backend =
        { result := some c, err := none, cache := m,
          kind := .noRefresh, serviceCalled := false }) := by
  have hwin : softRefreshWindow ttl = 2 * 1000000000 := by decide
  simp only [Get, hload]
  rw [if_neg hak, if_neg hfresh, hwin]
  constructor
  · intro h
    rw [if_pos h]
  · intro h
    rw [if_neg h]

/-- Witness for C6: with `eol = 10¹⁰` and `now = 9·10⁹` the entry is
inside the soft-refresh window and `Get` returns it while spawning the
asynchronous refresh. -/
theorem soft_refresh_window_C6_witness :
    Get unmarshal0 ttl 9000000000 (.resp 200 "x") false
        [(prepareKey "AK" "b1", ⟨"AK", "SK", 10000000000, none⟩)] "AK" "b1" =
      { result := some ⟨"AK", "SK", 10000000000, none⟩, err := none,
        cache := [(prepareKey "AK" "b1", ⟨"AK", "SK", 10000000000, none⟩)],
        kind := .async, serviceCalled := false } :=
  (soft_refresh_window_C6 unmarshal0 9000000000 (.resp 200 "x") false
    [(prepareKey "AK" "b1", ⟨"AK", "SK", 10000000000, none⟩)] "AK" "b1"
    ⟨"AK", "SK", 10000000000, none⟩ (by decide) (by decide) (by decide)).1 (by decide)

/-- C7 counterexample.  The claim says that whenever a prior cache entry
exists, a transient refresh failure preserves its material and `Get`
returns it with no error.  A cached 404 sentinel is a prior entry with
empty `access_key`: on the next `Get` (blocking case, service answering
500) `updateCache` copies the sentinel, records the transient error, and
returns `nil` with the error — not material with no error. -/
theorem transient_prior_sentinel_C7_counterexample :
    (Get unmarshal0 ttl 6000 (.resp 500 "") false
        [(prepareKey "AK" "b1", ⟨"", "", 9999999999999, some .notFound⟩)]
        "AK" "b1").err =
      some (CrdError.transient
        "unable to get credentials from store service - StatusCode: 500") ∧
    (Get unmarshal0 ttl 6000 (.resp 500 "") false
        [(prepareKey "AK" "b1", ⟨"", "", 9999999999999, some .notFound⟩)]
        "AK" "b1").result = none := by
  decide

/-- C7 amended.  When a refresh running its locked section fails with a
transport error or a status other than 200 and 404: if the prior entry has
non-empty `access_key`, its credential material is preserved, the
transient error is recorded on the stored entry, `eol` is reset to
`now + TTL`, and the material is returned with no error; if there is no
prior entry, a placeholder with empty `access_key` is stored and the error
is returned (a prior entry with empty `access_key` behaves like the
placeholder case: the error is returned).  A 404 from the service is
always reported as `ErrCredentialsNotFound`, never as a transient error. -/
theorem transient_error_preserves_material_C7
    (unmarshal : String → CredentialsStoreData × Option CrdError)
    (TTL now : Nat) (wire : WireResult) (lockHeld blocking : Bool) (m : Cache)
    (key : String) (msg : String)
    (hrun : (!blocking && lockHeld) = false)
    (hw : (GetFromService unmarshal wire).2 = some (.transient msg)) :
    (∀ prior : CredentialsStoreData, prior.AccessKey ≠ "" →
      updateCache unmarshal TTL now wire lockHeld m key (some prior) blocking =
        { result := some { prior with err := some (.transient msg), EOL := now + TTL },
          err := none,
          cache := cacheStore key
            { prior with err := some (.transient msg), EOL := now + TTL } m,
          serviceCalled := true }) ∧
    (updateCache unmarshal TTL now wire lockHeld m key none blocking =
        { result := none, err := some (.transient msg),
          cache := cacheStore key ⟨"", "", now + TTL, some (.transient msg)⟩ m,
          serviceCalled := true }) ∧
    (∀ body : String,
      GetFromService unmarshal (WireResult.resp 404 body) =
        (none, some CrdError.notFound)) := by
  refine ⟨?_, ?_, ?_⟩
  · intro prior hprior
    unfold updateCache
    rw [hrun]
    simp only [Bool.false_eq_true, if_false, hw]
    simp [if_neg hprior]
  · unfold updateCache
    rw [hrun]
    simp [hw]
  · intro body
    rfl

/-- Witness for C7: a 500 from the service with a prior entry carrying
material preserves that material, records the error, and returns the
material with no error. -/
theorem transient_error_preserves_material_C7_witness :
    updateCache unmarshal0 ttl 6000 (.resp 500 "") false []
        (prepareKey "AK" "b1") (some ⟨"AK", "SK", 5000, none⟩) true =
      { result := some ⟨"AK", "SK", 6000 + ttl,
          some (.transient "unable to get credentials from store service - StatusCode: 500")⟩,
        err := none,
        cache := cacheStore (prepareKey "AK" "b1")
          ⟨"AK", "SK", 6000 + ttl,
            some (.transient "unable to get credentials from store service - StatusCode: 500")⟩ [],
        serviceCalled := true } :=
  (transient_error_preserves_material_C7 unmarshal0 ttl 6000 (.resp 500 "") false true
    [] (prepareKey "AK" "b1")
    "unable to get credentials from store service - StatusCode: 500"
    (by decide) (by decide)).1 ⟨"AK", "SK", 5000, none⟩ (by decide)

/-- C8 counterexample.  The claim promises at most one upstream request
per cache key per TTL window under any `Get` load.  Two consecutive `Get`
calls for the same key, 10 ms apart — both inside the 10 s TTL window
opened by the first — each contact the service (the 404 sentinel does not
suppress the second request), so the count is 2. -/
theorem single_flight_C8_counterexample :
    (runGets unmarshal0 ttl [] 0
      [⟨1000, .resp 404 "", false, "AK", "b1"⟩,
       ⟨1000 + 10000000, .resp 404 "", false, "AK", "b1"⟩]).2 = 2 ∧
    1000 + 10000000 < 1000 + ttl := by
  decide

/-- C8 amended.  Refreshes run under the store mutex and a non-blocking
refresh that finds the mutex held returns the existing entry unchanged,
with no error and without contacting the service; the cache may however
issue several upstream requests for one key inside a TTL window, since
every blocking refresh fetches once it holds the lock. -/
theorem trylock_skips_service_C8
    (unmarshal : String → CredentialsStoreData × Option CrdError)
    (TTL now : Nat) (wire : WireResult) (m : Cache) (key : String)
    (csd : Option CredentialsStoreData) :
    updateCache unmarshal TTL now wire true m key csd false =
      { result := csd, err := none, cache := m, serviceCalled := false } :=
  rfl

/-- C10.  When `cs.TTL` is below one second, the integer division
`cs.TTL / time.Second` in the soft-refresh window truncates to zero, so
the window is zero and the asynchronous-refresh case of `Get` can never
fire: its guard `now + 0 > eol` is exactly the expiry test that the
previous case already took. -/
theorem subsecond_ttl_no_async_C10
    (unmarshal : String → CredentialsStoreData × Option CrdError)
    (TTL now : Nat) (wire : WireResult) (lockHeld : Bool) (m : Cache)
    (accessKey backend : String)
    (hTTL : TTL < 1000000000) :
    softRefreshWindow TTL = 0 ∧
    (Get unmarshal TTL now wire lockHeld m accessKey backend).kind ≠
      RefreshKind.async := by
  have hw : softRefreshWindow TTL = 0 := by
    unfold softRefreshWindow
    rw [Nat.div_eq_of_lt hTTL]
    rfl
  refine ⟨hw, ?_⟩
  cases hload : cacheLoad m (prepareKey accessKey backend) with
  | none => simp [Get, hload]
  | some c =>
    by_cases h1 : c.AccessKey = ""
    · simp [Get, hload, h1]
    · by_cases h2 : now > c.EOL
      · simp [Get, hload, h1, h2]
      · have h3 : ¬ now + softRefreshWindow TTL > c.EOL := by
          rw [hw]
          simpa using h2
        simp [Get, hload, h1, h2, h3]

/-- Witness for C10: a 500 ms TTL yields a zero soft-refresh window and a
`Get` on a fresh entry spawns no asynchronous refresh. -/
theorem subsecond_ttl_no_async_C10_witness :
    softRefreshWindow 500000000 = 0 ∧
    (Get unmarshal0 500000000 1000 (.resp 200 "x") false
        [(prepareKey "AK" "b1", ⟨"AK", "SK", 400000000, none⟩)]
        "AK" "b1").kind ≠ RefreshKind.async :=
  subsecond_ttl_no_async_C10 unmarshal0 500000000 1000 (.resp 200 "x") false
    [(prepareKey "AK" "b1", ⟨"AK", "SK", 400000000, none⟩)] "AK" "b1" (by decide)

/-- C4 counterexample.  The claim says the first-listed decorator is the
outermost wrapper, executing first on the inbound request.  Over the trace
transport, `Decorate base [d₁, d₂]` records `[2, 1]`: decorator 2 — the
last-listed one — acted on the request first, not decorator 1 (which would
give `[1, 2]`). -/
theorem decorate_order_C4_counterexample :
    Decorate baseTransport [tagDecorator 1, tagDecorator 2] [] = [2, 1] ∧
    ([2, 1] : List Nat) ≠ [1, 2] :=
  ⟨rfl, by decide⟩

/-- Helper for C4: over the trace transport, the tags are recorded in
reverse list order — the last-listed decorator touches the request
first. -/
theorem decorate_trace (l : List Nat) (rt : TraceTransport) (req : List Nat) :
    Decorate rt (l.map tagDecorator) req = rt (req ++ l.reverse) := by
  induction l generalizing rt req with
  | nil => simp [Decorate]
  | cons a t ih =>
      show Decorate (tagDecorator a rt) (t.map tagDecorator) req = _
      rw [ih]
      simp [tagDecorator]

/-- C4 amended.  `Decorate(rt, d₁, …, dₙ)` composes left-to-right with the
last-listed decorator outermost: `d₁` wraps the base transport directly,
appending a decorator to the list wraps the whole previous composition,
and over the trace transport the recorded order of execution is the
reverse of the list order (`dₙ` first on the inbound request). -/
theorem decorate_last_outermost_C4 {τ : Type} (rt : τ) (ds : List (τ → τ))
    (d : τ → τ) (l : List Nat) (req : List Nat) :
    Decorate rt (ds ++ [d]) = d (Decorate rt ds) ∧
    Decorate rt (d :: ds) = Decorate (d rt) ds ∧
    Decorate baseTransport (l.map tagDecorator) req = req ++ l.reverse := by
  refine ⟨?_, rfl, ?_⟩
  · simp [Decorate, List.foldl_append]
  · rw [decorate_trace]
    rfl

/-- C3 counterexample.  The claim says `Pick` returns the all-clusters
transport if and only if the key has exactly one non-empty segment.  The
root path `"/"` has zero non-empty segments, yet after trimming it splits
into the single empty field, so `isBucketPath` accepts it and `Pick`
returns the all-clusters transport. -/
theorem bucket_path_iff_C3_counterexample :
    Pick (⟨fun _ => [], [], 0⟩ : ShardsRing Nat) ['/'] = Except.ok 0 ∧
    nonEmptySegmentCount ['/'] = 0 := by
  constructor
  · rfl
  · rfl

/-- C3 amended.  `Pick(key)` returns the all-clusters transport if and
only if the key has at most one non-empty segment after trimming leading
and trailing slashes (the bucket-path test also accepts the all-slash and
empty paths, which have zero segments); for every other key it returns the
cluster the consistent-hash ring lookup names, or the missing-shard error
when that shard is absent from the index. -/
theorem bucket_path_routing_C3 {τ : Type} (sr : ShardsRing τ) (key : List Char) :
    (isBucketPath key = true ↔ nonEmptySegmentCount key ≤ 1) ∧
    (nonEmptySegmentCount key ≤ 1 →
      Pick sr key = Except.ok sr.allClustersRoundTripper) ∧
    (1 < nonEmptySegmentCount key →
      (∀ c, List.lookup (sr.ringGet key) sr.shardClusterMap = some c →
        Pick sr key = Except.ok c) ∧
      (List.lookup (sr.ringGet key) sr.shardClusterMap = none →
        Pick sr key = Except.error (sr.ringGet key, key))) := by
  refine ⟨isBucketPath_iff key, ?_, ?_⟩
  · intro hle
    rw [Pick, if_pos ((isBucketPath_iff key).mpr hle)]
  · intro hgt
    have hnb : ¬ isBucketPath key = true := by
      intro hb
      have := (isBucketPath_iff key).mp hb
      omega
    constructor
    · intro c hc
      rw [Pick, if_neg hnb]
      simp only [hc]
    · intro hc
      rw [Pick, if_neg hnb]
      simp only [hc]

/-- Witness for C3: on a concrete one-shard ring, the bucket path
`"/bucket"` broadcasts to the all-clusters transport and the object path
`"/bucket/obj"` resolves through the hash ring to its cluster. -/
theorem bucket_path_routing_C3_witness :
    Pick (⟨fun _ => ['s'], [(['s'], 5)], 9⟩ : ShardsRing Nat) "/bucket".toList =
      Except.ok 9 ∧
    Pick (⟨fun _ => ['s'], [(['s'], 5)], 9⟩ : ShardsRing Nat) "/bucket/obj".toList =
      Except.ok 5 :=
  ⟨(bucket_path_routing_C3 (⟨fun _ => ['s'], [(['s'], 5)], 9⟩ : ShardsRing Nat)
      "/bucket".toList).2.1 (by decide),
   ((bucket_path_routing_C3 (⟨fun _ => ['s'], [(['s'], 5)], 9⟩ : ShardsRing Nat)
      "/bucket/obj".toList).2.2 (by decide)).1 5 (by decide)⟩

/-- C5.  For a client configuration whose selected clusters have distinct
names and weights summing to a positive `W`, `mapShards` with shard count
`S` gives each cluster exactly `⌊S·wᵢ/W⌋` virtual shards, named
`"{name}-{i}"` for `i ∈ [0, shardsNum)` (every such identifier looks up to
its cluster and every key of the map is of this shape); the keys are
pairwise distinct, so each identifier placed on the ring by `clientRing`
resolves to exactly one cluster, and the total number of virtual shards is
`Σ ⌊S·wᵢ/W⌋ ≤ S`.  The source computes the quota in float64; that value
equals the exact floor whenever `S·wᵢ < 2⁵³`, which the embedding uses. -/
theorem weighted_shard_map_C5 (S W : Nat) (clusters : List ClusterCfg)
    (hW : W = weightSum clusters) (hpos : 0 < W)
    (hnames : (clusters.map (fun c => c.name)).Nodup) :
    ((mapShards S W clusters).map Prod.fst).Nodup ∧
    (∀ c ∈ clusters, ∀ i, i < shardsNum S W c.weight →
      List.lookup (shardName c.name i) (mapShards S W clusters) = some c) ∧
    (mapShards S W clusters).length =
      (clusters.map (fun c => shardsNum S W c.weight)).sum ∧
    (mapShards S W clusters).length ≤ S ∧
    (∀ k ∈ (mapShards S W clusters).map Prod.fst,
      ∃ c ∈ clusters, ∃ i, i < shardsNum S W c.weight ∧ k = shardName c.name i) := by
  have hrev : mapShards S W clusters = (shardBlocks S W clusters).reverse := by
    rw [mapShards_eq_storeAll,
      storeAll_fresh _ [] (shardBlocks_keys_nodup S W clusters hnames)
        (by intro k _ p hp; cases hp),
      List.append_nil]
  have hkeys : (mapShards S W clusters).map Prod.fst =
      ((shardBlocks S W clusters).map Prod.fst).reverse := by
    rw [hrev, List.map_reverse]
  have hnd : ((mapShards S W clusters).map Prod.fst).Nodup := by
    rw [hkeys, List.nodup_reverse]
    exact shardBlocks_keys_nodup S W clusters hnames
  have hlen : (mapShards S W clusters).length =
      (clusters.map (fun c => shardsNum S W c.weight)).sum := by
    rw [hrev, List.length_reverse, shardBlocks, List.length_flatMap]
    congr 1
    apply List.map_congr_left
    intro c _
    show ((List.range (shardsNum S W c.weight)).map
      (fun i => (shardName c.name i, c))).length = shardsNum S W c.weight
    simp
  refine ⟨hnd, ?_, hlen, ?_, ?_⟩
  · intro c hc i hi
    apply lookup_eq_of_mem hnd
    rw [hrev, List.mem_reverse, shardBlocks, List.mem_flatMap]
    exact ⟨c, hc, List.mem_map_of_mem _ (List.mem_range.mpr hi)⟩
  · rw [hlen]
    exact total_quota_le S W hpos clusters hW
  · intro k hk
    rw [hkeys, List.mem_reverse] at hk
    exact mem_shardBlocks_keys.mp hk

/-- Witness for C5: the spec scenario S1 — clusters `a` (weight 2) and `b`
(weight 1) with 9 shards — yields at most 9 virtual shards and
`"a-0"` resolves to cluster `a`. -/
theorem weighted_shard_map_C5_witness :
    (mapShards 9 3 [⟨"a".toList, 2⟩, ⟨"b".toList, 1⟩]).length ≤ 9 ∧
    List.lookup (shardName "a".toList 0)
        (mapShards 9 3 [⟨"a".toList, 2⟩, ⟨"b".toList, 1⟩]) =
      some ⟨"a".toList, 2⟩ :=
  ⟨(weighted_shard_map_C5 9 3 [⟨"a".toList, 2⟩, ⟨"b".toList, 1⟩]
      (by decide) (by decide) (by decide)).2.2.2.1,
   (weighted_shard_map_C5 9 3 [⟨"a".toList, 2⟩, ⟨"b".toList, 1⟩]
      (by decide) (by decide) (by decide)).2.1 ⟨"a".toList, 2⟩ (by decide) 0
      (by decide)⟩

/-- Helper for C9: the request-header defaulting loop touches only the
header map; `Host` and the URL host are unchanged by it. -/
theorem applyRequestHeaders_host (hs : List (List Char × List Char)) (r : Request) :
    (applyRequestHeaders hs r).host = r.host ∧
    (applyRequestHeaders hs r).urlHost = r.urlHost := by
  induction hs generalizing r with
  | nil => exact ⟨rfl, rfl⟩
  | cons kv t ih =>
      have hstep : (addIfAbsent r kv).host = r.host ∧
          (addIfAbsent r kv).urlHost = r.urlHost := by
        rw [addIfAbsent]
        split <;> exact ⟨rfl, rfl⟩
      have := ih (addIfAbsent r kv)
      exact ⟨by rw [applyRequestHeaders, List.foldl_cons, ← applyRequestHeaders,
          this.1, hstep.1],
        by rw [applyRequestHeaders, List.foldl_cons, ← applyRequestHeaders,
          this.2, hstep.2]⟩

/-- C9.  For every request whose original `Host` contains `".s3."`, the
dispatched request carries `Host = bucket.<backend-host>`: the part of the
original host before the first `".s3."` joined by a dot with the backend
host already present in `req.URL.Host`, both in the `Host` field and in
the `Host` header; the URL host itself is left as the backend host. -/
theorem s3_host_rewrite_C9 (requestHeaders : List (List Char × List Char))
    (req : Request) (h : containsSub s3Pat req.host = true) :
    (headersSuplierPre requestHeaders req).host =
      splitBefore s3Pat req.host ++ '.' :: req.urlHost ∧
    List.lookup hostKey (headersSuplierPre requestHeaders req).headers =
      some (splitBefore s3Pat req.host ++ '.' :: req.urlHost) ∧
    (headersSuplierPre requestHeaders req).urlHost = req.urlHost := by
  have hpre := applyRequestHeaders_host requestHeaders
    { req with urlScheme := ['h', 't', 't', 'p'] }
  rw [headersSuplierPre]
  simp only [hpre.1, hpre.2]
  rw [if_pos h]
  refine ⟨rfl, ?_, rfl⟩
  simp [setHeader, List.lookup]

/-- Witness for C9: the virtual-hosted host `bucket.s3.region.example`
with backend host `backend.local:8080` is rewritten to
`bucket.backend.local:8080`. -/
theorem s3_host_rewrite_C9_witness :
    (headersSuplierPre []
        ⟨"bucket.s3.region.example".toList, "backend.local:8080".toList, [], []⟩).host =
      "bucket.backend.local:8080".toList :=
  by
    have h := (s3_host_rewrite_C9 []
      ⟨"bucket.s3.region.example".toList, "backend.local:8080".toList, [], []⟩
      (by decide)).1
    rw [h]
    decide

end ClaimTheorems
